import Mathlib

/-!
Shallow embedding of `src/prediction_model/pricing_algo.py`
(`CryptoPricingQuantityAlgorithm`), the portfolio-construction core of the
flowchain repository.  Python floats are modelled as exact rationals `ℚ`;
Python dicts (insertion-ordered, unique keys) are modelled as association
lists `List (String × ℚ)` with first-match lookup; code that can raise an
uncaught exception is modelled in `Except Unit`.
-/

namespace FlowChain

open Matrix

/-- Python `d[k]` / `k in d` lookup on an association list (first match). -/
def dget : List (String × ℚ) → String → Option ℚ
  | [], _ => none
  | p :: rest, k => if p.1 = k then some p.2 else dget rest k

/-- Key list of an association list (Python `dict.keys()`). -/
def keys (l : List (String × ℚ)) : List String :=
  l.map Prod.fst

/-- Embedding of `kelly_criterion` (pricing_algo.py lines 211-258):
win probability clamped to [0.5, 0.95], odds from |r|, raw Kelly fraction,
volatility dampening floored at 0.1, clamp to [0, 0.25], sign restored,
scaled by the capital slot. -/
def kelly_criterion (expected_return win_probability volatility base_capital : ℚ) : ℚ :=
  let win_prob := max (1/2) (min (19/20) win_probability)
  let lose_prob := 1 - win_prob
  let is_short := expected_return < 0
  let abs_return := |expected_return|
  if abs_return = 0 then 0
  else
    let odds := if abs_return < 1 then abs_return / (1 - abs_return) else abs_return
    let kelly_raw := (win_prob * odds - lose_prob) / odds
    let kelly_damp := kelly_raw * max (1/10) (1 - volatility / 2)
    let kelly_clamped := max 0 (min kelly_damp (1/4))
    let kelly_signed := if is_short then -kelly_clamped else kelly_clamped
    base_capital * kelly_signed

/-- Macro-sentiment multiplier of `adjust_for_macro_sentiment`
(pricing_algo.py lines 277-278): `max(0.3, min(1.8, 1 + s*0.5))`. -/
def macro_multiplier (macro_sentiment : ℚ) : ℚ :=
  max (3/10) (min (9/5) (1 + macro_sentiment * (1/2)))

/-- Spec-side clamp, from the spec's words `clamp(1 + macro_sentiment*0.5, 0.3, 1.8)`. -/
def clamp_spec (lo hi x : ℚ) : ℚ :=
  max lo (min hi x)

/-- Embedding of `adjust_for_macro_sentiment` (pricing_algo.py lines 260-285). -/
def adjust_for_macro_sentiment (positions : List (String × ℚ)) (macro_sentiment : ℚ) :
    List (String × ℚ) :=
  positions.map (fun p => (p.1, p.2 * macro_multiplier macro_sentiment))

/-- Discrete risk multiplier of `apply_risk_constraints` (pricing_algo.py lines 305-313). -/
def risk_multiplier (user_risk_level : ℚ) : ℚ :=
  if user_risk_level < 1/4 then 1/4
  else if user_risk_level < 1/2 then 1/2
  else if user_risk_level < 3/4 then 1
  else 3/2

/-- Per-asset clamp of `apply_risk_constraints` (pricing_algo.py lines 325-331):
magnitudes above the max are clamped (sign kept via `1 if x > 0 else -1`),
magnitudes below the min are zeroed. -/
def clamp_position (max_position min_position x : ℚ) : ℚ :=
  if |x| > max_position then (if x > 0 then 1 else -1) * max_position
  else if |x| < min_position then 0
  else x

/-- Risk-multiplied and per-asset-clamped positions: the intermediate state of
`apply_risk_constraints` just before the book-level scaling step. -/
def clamp_stage (capital : ℚ) (positions : List (String × ℚ)) (user_risk_level : ℚ) :
    List (String × ℚ) :=
  (positions.map (fun p => (p.1, p.2 * risk_multiplier user_risk_level))).map
    (fun p => (p.1, clamp_position (capital * (3/10)) (capital * (1/100)) p.2))

/-- Embedding of `apply_risk_constraints` (pricing_algo.py lines 287-342):
risk multiplier, per-asset clamp, then rescale everything by
`capital / total_allocated` when the signed total exceeds capital. -/
def apply_risk_constraints (capital : ℚ) (positions : List (String × ℚ))
    (user_risk_level : ℚ) : List (String × ℚ) :=
  let clamped := clamp_stage capital positions user_risk_level
  let total_allocated := (clamped.map Prod.snd).sum
  if total_allocated > capital then
    clamped.map (fun p => (p.1, p.2 * (capital / total_allocated)))
  else clamped

/-- Embedding of `calculate_quantities` (pricing_algo.py lines 344-364):
keep a symbol only when its position is non-zero and a strictly positive
price is known; its quantity is `position_usd / price`. -/
def calculate_quantities (positions prices : List (String × ℚ)) : List (String × ℚ) :=
  positions.filterMap (fun p : String × ℚ =>
    match dget prices p.1 with
    | some price => if p.2 ≠ 0 ∧ price > 0 then some (p.1, p.2 / price) else none
    | none => none)

/-- One record of the final output map of `execute_algorithm`
(pricing_algo.py lines 445-454). -/
structure OutputRecord where
  position_usd : ℚ
  quantity : ℚ
  price : ℚ
  weight : ℚ
  expected_return : ℚ
  confidence : ℚ
deriving DecidableEq, Repr

/-- The final-output loop of `execute_algorithm` (pricing_algo.py lines 442-454):
for every symbol with a non-zero position, build the output record from the
`positions`, `quantities`, `prices` and `confidences` dicts; a missing key
(Python `KeyError`) is an uncaught exception, modelled as `Except.error ()`. -/
def build_output (positions quantities prices confidences : List (String × ℚ))
    (total_allocated : ℚ) (expected_returns : List ℚ) (symbols : List String) :
    List String → Except Unit (List (String × OutputRecord))
  | [] => .ok []
  | s :: rest =>
    match dget positions s with
    | none => .error ()
    | some pos =>
      if pos ≠ 0 then
        match dget quantities s, dget prices s, dget confidences s with
        | some q, some price, some conf =>
          match build_output positions quantities prices confidences
              total_allocated expected_returns symbols rest with
          | .ok out =>
            .ok ((s, { position_usd := pos
                       quantity := q
                       price := price
                       weight := if total_allocated > 0 then pos / total_allocated else 0
                       expected_return := expected_returns.getD (symbols.indexOf s) 0
                       confidence := conf }) :: out)
          | .error e => .error e
        | _, _, _ => .error ()
      else build_output positions quantities prices confidences
          total_allocated expected_returns symbols rest

/-- Steps 8 and the output assembly of `execute_algorithm`
(pricing_algo.py lines 437-456), taking the already-computed positions,
prices, posterior expected returns and per-symbol confidences as inputs. -/
def execute_output (positions prices : List (String × ℚ)) (expected_returns : List ℚ)
    (confidences : List (String × ℚ)) (symbols : List String) :
    Except Unit (List (String × OutputRecord)) :=
  build_output positions (calculate_quantities positions prices) prices confidences
    ((positions.map Prod.snd).sum) expected_returns symbols symbols

/-- Embedding of `calculate_market_equilibrium` (pricing_algo.py lines 117-144).
When a non-empty market-cap dict is passed, Python evaluates
`market_caps[symbol] / total_cap` for every price symbol: a missing key raises
`KeyError` and a zero total raises `ZeroDivisionError` (both uncaught,
modelled as `Except.error ()`); the computed weights are otherwise unused and
every returned entry is `risk_free_rate + 0.05`. -/
def calculate_market_equilibrium (risk_free_rate : ℚ) (prices : List (String × ℚ))
    (market_caps : Option (List (String × ℚ))) : Except Unit (List ℚ) :=
  match market_caps with
  | some caps =>
    if caps ≠ [] then
      if (∀ p ∈ prices, p.1 ∈ keys caps) ∧ (prices = [] ∨ (caps.map Prod.snd).sum ≠ 0) then
        .ok (List.replicate prices.length (risk_free_rate + 1/20))
      else .error ()
    else .ok (List.replicate prices.length (risk_free_rate + 1/20))
  | none => .ok (List.replicate prices.length (risk_free_rate + 1/20))

/-- Per-view uncertainty of `black_litterman_model` (pricing_algo.py line 188):
`(1 - confidence) * tau * variance if variance > 0 else 0.01`. -/
def omega_uncertainty (tau confidence variance : ℚ) : ℚ :=
  if variance > 0 then (1 - confidence) * tau * variance else 1/100

/-- The `omega_diag` list built by the view loop of `black_litterman_model`
(pricing_algo.py lines 176-189): one entry is appended per view whose symbol
occurs in `symbols`; views on unknown symbols contribute nothing. -/
def omegaDiag (tau : ℚ) (symbols : List String)
    (covariance_matrix : Matrix (Fin symbols.length) (Fin symbols.length) ℚ)
    (views view_confidences : List (String × ℚ)) : List ℚ :=
  views.filterMap (fun v : String × ℚ =>
    if h : v.1 ∈ symbols then
      some (omega_uncertainty tau ((dget view_confidences v.1).getD (1/2))
        (covariance_matrix ⟨symbols.indexOf v.1, List.indexOf_lt_length.mpr h⟩
          ⟨symbols.indexOf v.1, List.indexOf_lt_length.mpr h⟩))
    else none)

/-- The view-link matrix `P` of `black_litterman_model` (pricing_algo.py
lines 169, 176-180): `|views| × |symbols|`, row `i` has a single 1 in the
column of view `i`'s symbol when that symbol is known, and is zero otherwise. -/
def viewP (symbols : List String) (views : List (String × ℚ)) :
    Matrix (Fin views.length) (Fin symbols.length) ℚ :=
  Matrix.of fun i j =>
    if (views.get i).1 ∈ symbols ∧ symbols.indexOf (views.get i).1 = j.val then 1 else 0

/-- The view vector `Q` of `black_litterman_model` (pricing_algo.py lines
170, 176-181): entry `i` is view `i`'s expected return when its symbol is
known, 0 otherwise. -/
def viewQ (symbols : List String) (views : List (String × ℚ)) : Fin views.length → ℚ :=
  fun i => if (views.get i).1 ∈ symbols then (views.get i).2 else 0

/-- Exact-arithmetic matrix inverse over ℚ (the idealisation of
`np.linalg.inv` on the non-singular inputs where it does not raise):
`det⁻¹ • adjugate`, which for ℚ agrees with Mathlib's `Matrix.inv`. -/
def qMatInv {n : ℕ} (A : Matrix (Fin n) (Fin n) ℚ) : Matrix (Fin n) (Fin n) ℚ :=
  (A.det)⁻¹ • A.adjugate

/-- The diagonal matrix `Omega = np.diag(omega_diag)` (pricing_algo.py
line 191); its dimension is the number of views whose symbol is known. -/
def OmegaM (tau : ℚ) (symbols : List String)
    (covariance_matrix : Matrix (Fin symbols.length) (Fin symbols.length) ℚ)
    (views view_confidences : List (String × ℚ)) :
    Matrix (Fin (omegaDiag tau symbols covariance_matrix views view_confidences).length)
      (Fin (omegaDiag tau symbols covariance_matrix views view_confidences).length) ℚ :=
  Matrix.diagonal (omegaDiag tau symbols covariance_matrix views view_confidences).get

/-- The matrix `M_inv = inv(tau*Sigma) + P.T @ inv(Omega) @ P`
(pricing_algo.py line 199), only well-formed when `Omega`'s dimension equals
the number of views (otherwise numpy's matmul raises before it is built). -/
def Minv (tau : ℚ) (symbols : List String)
    (covariance_matrix : Matrix (Fin symbols.length) (Fin symbols.length) ℚ)
    (views view_confidences : List (String × ℚ))
    (h : (omegaDiag tau symbols covariance_matrix views view_confidences).length
      = views.length) : Matrix (Fin symbols.length) (Fin symbols.length) ℚ :=
  qMatInv (tau • covariance_matrix) +
    (viewP symbols views)ᵀ *
      (Matrix.reindex (finCongr h) (finCongr h)
        (qMatInv (OmegaM tau symbols covariance_matrix views view_confidences))) *
      viewP symbols views

/-- Embedding of `black_litterman_model` (pricing_algo.py lines 146-209).
Mirrors the Python evaluation order inside the `try` block:
`np.linalg.inv(tau_sigma)` and `np.linalg.inv(Omega)` raise `LinAlgError` on a
singular argument, which the `except np.linalg.LinAlgError` clause catches by
returning the equilibrium vector (`Except.ok equilibrium_returns`); next the
matmul `P.T @ inv(Omega) @ P` raises an uncaught shape-mismatch `ValueError`
(`Except.error ()`) whenever `Omega`'s dimension differs from `|views|`;
finally a singular `M_inv` is again caught, and otherwise the posterior
`M @ (inv(tau_sigma) @ pi + P.T @ inv(Omega) @ Q)` is returned. -/
def black_litterman_model (tau : ℚ) (symbols : List String)
    (equilibrium_returns : Fin symbols.length → ℚ)
    (covariance_matrix : Matrix (Fin symbols.length) (Fin symbols.length) ℚ)
    (views view_confidences : List (String × ℚ)) :
    Except Unit (Fin symbols.length → ℚ) :=
  if (tau • covariance_matrix).det = 0 then .ok equilibrium_returns
  else if (OmegaM tau symbols covariance_matrix views view_confidences).det = 0 then
    .ok equilibrium_returns
  else if h : (omegaDiag tau symbols covariance_matrix views view_confidences).length
      = views.length then
    if (Minv tau symbols covariance_matrix views view_confidences h).det = 0 then
      .ok equilibrium_returns
    else
      .ok ((qMatInv (Minv tau symbols covariance_matrix views view_confidences h)) *ᵥ
        ((qMatInv (tau • covariance_matrix)) *ᵥ equilibrium_returns +
          (viewP symbols views)ᵀ *ᵥ
            ((Matrix.reindex (finCongr h) (finCongr h)
              (qMatInv (OmegaM tau symbols covariance_matrix views view_confidences))) *ᵥ
              viewQ symbols views)))
  else .error ()

example : kelly_criterion (1/10) (1/2) 0 1 = 0 := by
  norm_num [kelly_criterion, abs_of_nonneg, abs_of_nonpos]

example : kelly_criterion (1/2) (4/5) (1/2) 1000 = 250 := by
  norm_num [kelly_criterion, abs_of_nonneg, abs_of_nonpos]

example : kelly_criterion (-1/2) (4/5) (1/2) 1000 = -250 := by
  norm_num [kelly_criterion, abs_of_nonneg, abs_of_nonpos]

example : apply_risk_constraints 100 [("a", 1), ("b", 30), ("c", 30), ("d", 30), ("e", 30)] (3/5)
    = [("a", 100/121), ("b", 3000/121), ("c", 3000/121), ("d", 3000/121), ("e", 3000/121)] := by
  norm_num [apply_risk_constraints, clamp_stage, clamp_position, risk_multiplier, abs_of_nonneg, abs_of_nonpos]

/-! ## Helper lemmas -/

lemma mul_clamp_bound (c X : ℚ) (hc : 0 ≤ c) :
    |c * max 0 (min X (1/4))| ≤ (1/4) * c := by
  have h0 : (0:ℚ) ≤ max 0 (min X (1/4)) := le_max_left _ _
  have h1 : max 0 (min X (1/4)) ≤ 1/4 := max_le (by norm_num) (min_le_right _ _)
  rw [abs_mul, abs_of_nonneg hc, abs_of_nonneg h0]
  nlinarith

lemma kelly_criterion_of_zero (p sigma c : ℚ) : kelly_criterion 0 p sigma c = 0 := by
  simp [kelly_criterion]

lemma mul_neg_clamp_nonpos (c X : ℚ) (hc : 0 ≤ c) :
    c * -(max 0 (min X (1/4))) ≤ 0 := by
  have h0 : (0:ℚ) ≤ max 0 (min X (1/4)) := le_max_left _ _
  nlinarith

lemma mul_clamp_nonneg (c X : ℚ) (hc : 0 ≤ c) :
    0 ≤ c * max 0 (min X (1/4)) := by
  have h0 : (0:ℚ) ≤ max 0 (min X (1/4)) := le_max_left _ _
  nlinarith

lemma kelly_criterion_nonpos (r p sigma c : ℚ) (hc : 0 ≤ c) (hr : r ≤ 0) :
    kelly_criterion r p sigma c ≤ 0 := by
  rcases eq_or_lt_of_le hr with rfl | hlt
  · rw [kelly_criterion_of_zero]
  · have habs : ¬(|r| = 0) := by simp only [abs_eq_zero]; exact ne_of_lt hlt
    simp only [kelly_criterion]
    rw [if_neg habs, if_pos hlt]
    exact mul_neg_clamp_nonpos c _ hc

lemma kelly_criterion_nonneg (r p sigma c : ℚ) (hc : 0 ≤ c) (hr : 0 ≤ r) :
    0 ≤ kelly_criterion r p sigma c := by
  rcases eq_or_lt_of_le hr with rfl | hlt
  · rw [kelly_criterion_of_zero]
  · have habs : ¬(|r| = 0) := by simp only [abs_eq_zero]; exact (ne_of_lt hlt).symm
    simp only [kelly_criterion]
    rw [if_neg habs, if_neg (not_lt.mpr hr)]
    exact mul_clamp_nonneg c _ hc

/-! ## Claim theorems -/

/-- C1 (Kelly bound): for every expected return `r`, win probability `p`,
volatility `sigma` and nonnegative capital slot `c`, the Kelly position sizer
satisfies `|kelly_criterion r p sigma c| ≤ 0.25 * c`. -/
theorem kelly_bound (r p sigma c : ℚ) (hc : 0 ≤ c) :
    |kelly_criterion r p sigma c| ≤ (1/4) * c := by
  simp only [kelly_criterion]
  split_ifs with habs
  · rw [abs_zero]
    positivity
  all_goals
    first
      | (rw [mul_neg, abs_neg]; exact mul_clamp_bound _ _ hc)
      | exact mul_clamp_bound _ _ hc

/-- Witness for C1: the bound holds at the concrete input
`(r, p, sigma, c) = (1/2, 4/5, 1/2, 1000)`. -/
theorem kelly_bound_witness :
    (0:ℚ) ≤ 1000 ∧ |kelly_criterion (1/2) (4/5) (1/2) 1000| ≤ (1/4) * 1000 :=
  ⟨by norm_num, kelly_bound (1/2) (4/5) (1/2) 1000 (by norm_num)⟩

/-- C4 counterexample: at `r = 1/10`, `p = 1/2`, `sigma = 0`, `c = 1` the raw
Kelly fraction is negative, so the clamp to `[0, 0.25]` zeroes the position:
`kelly_criterion = 0` although `r > 0`, refuting the three-way iff. -/
theorem kelly_sign_cex :
    kelly_criterion (1/10) (1/2) 0 1 = 0 ∧
    ¬((0:ℚ) < kelly_criterion (1/10) (1/2) 0 1 ↔ (0:ℚ) < 1/10) := by
  have h : kelly_criterion (1/10) (1/2) 0 1 = 0 := by
    norm_num [kelly_criterion, abs_of_nonneg, abs_of_nonpos]
  exact ⟨h, by rw [h]; norm_num⟩

/-- C4 (amended): for positive capital the Kelly position never has the
opposite sign of the expected return: a strictly positive position forces
`r > 0`, a strictly negative one forces `r < 0`, and `r = 0` gives exactly 0;
the converses fail because the `[0, 0.25]` clamp can zero a position with
`r ≠ 0`. -/
theorem kelly_sign (r p sigma c : ℚ) (hc : 0 < c) :
    (0 < kelly_criterion r p sigma c → 0 < r) ∧
    (kelly_criterion r p sigma c < 0 → r < 0) ∧
    (r = 0 → kelly_criterion r p sigma c = 0) := by
  refine ⟨?_, ?_, ?_⟩
  · intro hpos
    by_contra hr
    push_neg at hr
    exact absurd hpos (not_lt.mpr (kelly_criterion_nonpos r p sigma c hc.le hr))
  · intro hneg
    by_contra hr
    push_neg at hr
    exact absurd hneg (not_lt.mpr (kelly_criterion_nonneg r p sigma c hc.le hr))
  · rintro rfl
    exact kelly_criterion_of_zero p sigma c

/-- Witness for C4 (amended) at `(r, p, sigma, c) = (0, 4/5, 1/2, 1)`. -/
theorem kelly_sign_witness :
    (0:ℚ) < 1 ∧ kelly_criterion 0 (4/5) (1/2) 1 = 0 :=
  ⟨by norm_num, (kelly_sign 0 (4/5) (1/2) 1 (by norm_num)).2.2 rfl⟩

/-- C7 (macro adjustment): `adjust_for_macro_sentiment` multiplies every
position by the uniform multiplier `clamp(1 + macro_sentiment*0.5, 0.3, 1.8)`;
the multiplier is monotone in the sentiment and always lies in `[0.3, 1.8]`. -/
theorem macro_adjustment (s t : ℚ) (positions : List (String × ℚ)) :
    adjust_for_macro_sentiment positions s
      = positions.map (fun p => (p.1, p.2 * clamp_spec (3/10) (9/5) (1 + s * (1/2)))) ∧
    (s ≤ t → macro_multiplier s ≤ macro_multiplier t) ∧
    (3/10 ≤ macro_multiplier s ∧ macro_multiplier s ≤ 9/5) := by
  refine ⟨rfl, ?_, le_max_left _ _, max_le (by norm_num) (min_le_left _ _)⟩
  intro hst
  have h : 1 + s * (1/2) ≤ 1 + t * (1/2) := by linarith
  exact max_le_max le_rfl (min_le_min le_rfl h)

/-- Witness for C7 at `s = 0 ≤ t = 1` with a one-entry book. -/
theorem macro_adjustment_witness :
    macro_multiplier 0 ≤ macro_multiplier 1 ∧ 3/10 ≤ macro_multiplier 0 :=
  ⟨(macro_adjustment 0 1 [("a", 1)]).2.1 (by norm_num),
   (macro_adjustment 0 1 [("a", 1)]).2.2.1⟩

/-- C10 (frame): both adjustment stages return a map with exactly the input's
key list (zeroed symbols keep their key); the embedding is pure, matching the
Python dict comprehensions that build fresh dicts without mutating the input. -/
theorem frame_keys (positions : List (String × ℚ)) (s capital r : ℚ) :
    keys (adjust_for_macro_sentiment positions s) = keys positions ∧
    keys (apply_risk_constraints capital positions r) = keys positions := by
  constructor
  · simp only [adjust_for_macro_sentiment, keys, List.map_map]
    rfl
  · have hstage : keys (clamp_stage capital positions r) = keys positions := by
      simp only [clamp_stage, keys, List.map_map]
      rfl
    simp only [apply_risk_constraints]
    split_ifs
    · simp only [keys, List.map_map]
      simpa [keys] using hstage
    · exact hstage

lemma sum_map_mul (l : List ℚ) (c : ℚ) :
    (l.map (fun x => x * c)).sum = l.sum * c := by
  induction l with
  | nil => simp
  | cons a t ih => simp [ih]; ring

lemma clamp_position_cases (M m x : ℚ) (hM : 0 < M) (hmM : m ≤ M) :
    clamp_position M m x = 0 ∨
      (m ≤ |clamp_position M m x| ∧ |clamp_position M m x| ≤ M) := by
  unfold clamp_position
  split_ifs with h1 hx h2
  · right
    rw [one_mul, abs_of_pos hM]
    exact ⟨hmM, le_rfl⟩
  · right
    rw [neg_one_mul, abs_neg, abs_of_pos hM]
    exact ⟨hmM, le_rfl⟩
  · left
    rfl
  · right
    exact ⟨not_lt.mp h2, not_lt.mp h1⟩

lemma clamp_stage_mem (capital r : ℚ) (positions : List (String × ℚ)) (hc : 0 < capital) :
    ∀ p ∈ clamp_stage capital positions r, p.2 = 0 ∨
      (capital * (1/100) ≤ |p.2| ∧ |p.2| ≤ capital * (3/10)) := by
  intro p hp
  simp only [clamp_stage, List.map_map, List.mem_map] at hp
  obtain ⟨q, _, rfl⟩ := hp
  exact clamp_position_cases (capital * (3/10)) (capital * (1/100)) _
    (by positivity) (by nlinarith)

/-- C2 counterexample: with `capital = 100` (so `min_position = 1`,
`max_position = 30`) and risk level `3/5` (multiplier 1), the book
`{a: 1, b: 30, c: 30, d: 30, e: 30}` survives the per-asset clamp with total
121 > 100, and the book-level rescale by `100/121` drags the position of `a`
to `100/121 < 1`: a non-zero output position below `0.01 * capital`. -/
theorem risk_constraint_bounds_cex :
    apply_risk_constraints 100 [("a", 1), ("b", 30), ("c", 30), ("d", 30), ("e", 30)] (3/5)
      = [("a", 100/121), ("b", 3000/121), ("c", 3000/121), ("d", 3000/121), ("e", 3000/121)] ∧
    (100/121 : ℚ) ≠ 0 ∧ |(100/121 : ℚ)| < (1/100) * 100 := by
  refine ⟨?_, by norm_num, by rw [abs_of_pos (by norm_num)]; norm_num⟩
  norm_num [apply_risk_constraints, clamp_stage, clamp_position, risk_multiplier,
    abs_of_nonneg, abs_of_nonpos]

/-- C2 (amended): after `apply_risk_constraints` with positive capital, the
signed sum of output positions is at most `capital`, and every non-zero output
position's magnitude is at most `0.30 * capital`; the lower bound
`0.01 * capital` additionally holds whenever the book-level rescale does not
trigger (i.e. the clamped total is at most `capital`) — the rescale can push a
position that sat at the minimum below it, refuting the unconditional lower
bound of the original claim. -/
theorem risk_constraint_bounds (capital r : ℚ) (positions : List (String × ℚ))
    (hc : 0 < capital) :
    ((apply_risk_constraints capital positions r).map Prod.snd).sum ≤ capital ∧
    (∀ p ∈ apply_risk_constraints capital positions r, p.2 ≠ 0 →
      |p.2| ≤ (3/10) * capital) ∧
    (((clamp_stage capital positions r).map Prod.snd).sum ≤ capital →
      ∀ p ∈ apply_risk_constraints capital positions r, p.2 ≠ 0 →
        (1/100) * capital ≤ |p.2|) := by
  have hmem := clamp_stage_mem capital r positions hc
  simp only [apply_risk_constraints]
  split_ifs with hT
  · -- rescaling branch: total after clamping exceeds capital
    have hTpos : 0 < ((clamp_stage capital positions r).map Prod.snd).sum :=
      lt_trans hc hT
    have hscale0 : 0 < capital / ((clamp_stage capital positions r).map Prod.snd).sum :=
      div_pos hc hTpos
    have hscale1 : capital / ((clamp_stage capital positions r).map Prod.snd).sum ≤ 1 :=
      (div_le_one hTpos).mpr (le_of_lt hT)
    refine ⟨?_, ?_, ?_⟩
    · rw [List.map_map]
      have heq : (Prod.snd ∘ fun p : String × ℚ =>
          (p.1, p.2 * (capital / ((clamp_stage capital positions r).map Prod.snd).sum)))
          = fun p : String × ℚ =>
            p.2 * (capital / ((clamp_stage capital positions r).map Prod.snd).sum) := rfl
      rw [heq]
      have : ((clamp_stage capital positions r).map fun p : String × ℚ =>
          p.2 * (capital / ((clamp_stage capital positions r).map Prod.snd).sum)).sum
          = (((clamp_stage capital positions r).map Prod.snd).map
              (fun x => x * (capital / ((clamp_stage capital positions r).map Prod.snd).sum))).sum := by
        rw [List.map_map]
        rfl
      rw [this, sum_map_mul, mul_comm, div_mul_cancel₀ capital (ne_of_gt hTpos)]
    · intro p hp hpne
      simp only [List.mem_map] at hp
      obtain ⟨q, hq, rfl⟩ := hp
      have hq2 : q.2 ≠ 0 := by
        intro h0
        apply hpne
        simp [h0]
      rcases hmem q hq with h0 | ⟨_, hub⟩
      · exact absurd h0 hq2
      · simp only [abs_mul]
        have habsscale : |capital / ((clamp_stage capital positions r).map Prod.snd).sum|
            = capital / ((clamp_stage capital positions r).map Prod.snd).sum :=
          abs_of_pos hscale0
        rw [habsscale]
        have hqabs : (0:ℚ) ≤ |q.2| := abs_nonneg _
        nlinarith
    · intro habs
      exact absurd habs (not_le.mpr hT)
  · -- no rescaling
    refine ⟨not_lt.mp hT, ?_, ?_⟩
    · intro p hp hpne
      rcases hmem p hp with h0 | ⟨_, hub⟩
      · exact absurd h0 hpne
      · nlinarith
    · intro _ p hp hpne
      rcases hmem p hp with h0 | ⟨hlb, _⟩
      · exact absurd h0 hpne
      · nlinarith

/-- Witness for C2 (amended) at `capital = 100`, a one-entry book, risk `3/5`. -/
theorem risk_constraint_bounds_witness :
    ((apply_risk_constraints 100 [("a", 50)] (3/5)).map Prod.snd).sum ≤ 100 :=
  (risk_constraint_bounds 100 (3/5) [("a", 50)] (by norm_num)).1

/-- C8 counterexample: with a non-empty market-cap dict that lacks a price
symbol (`prices = {a: 1}`, `market_caps = {b: 2}`), the weight comprehension
`market_caps[symbol] / total_cap` raises `KeyError`, so the estimator does not
return a vector — refuting "never fails" for arbitrary market-cap maps. -/
theorem equilibrium_flat_cex :
    calculate_market_equilibrium (1/25) [("a", 1)] (some [("b", 2)]) = .error () := by
  have hmem : ¬(∀ p ∈ [(("a":String), (1:ℚ))], p.1 ∈ keys [(("b":String), (2:ℚ))]) := by
    intro h
    have := h ("a", 1) (by simp)
    simp [keys] at this
  simp only [calculate_market_equilibrium]
  rw [if_pos (by simp), if_neg (by intro hand; exact hmem hand.1)]

/-- C8 (amended): `calculate_market_equilibrium` returns a vector of length
`|prices|` whose every entry is `risk_free_rate + 0.05`, provided the
market-cap map is absent or empty, or covers every price symbol with a
non-zero cap total (the weights it then computes are discarded); with a
non-empty cap map missing a price symbol, or a zero total against a non-empty
price map, the weight comprehension raises instead. -/
theorem equilibrium_flat (rfr : ℚ) (prices : List (String × ℚ))
    (caps : Option (List (String × ℚ)))
    (hwf : ∀ l, caps = some l → l ≠ [] →
      (∀ p ∈ prices, p.1 ∈ keys l) ∧ (prices = [] ∨ (l.map Prod.snd).sum ≠ 0)) :
    calculate_market_equilibrium rfr prices caps
      = .ok (List.replicate prices.length (rfr + 1/20)) := by
  cases caps with
  | none => rfl
  | some l =>
    simp only [calculate_market_equilibrium]
    by_cases hl : l ≠ []
    · rw [if_pos hl, if_pos (hwf l rfl hl)]
    · rw [if_neg hl]

/-- Witness for C8 (amended): a covering one-entry cap map yields the flat
vector `[risk_free_rate + 0.05]`. -/
theorem equilibrium_flat_witness :
    calculate_market_equilibrium (1/25) [("a", 1)] (some [("a", 2)]) = .ok [9/100] := by
  have h := equilibrium_flat (1/25) [("a", 1)] (some [("a", 2)])
    (by
      intro l hl hne
      obtain rfl : l = [("a", (2:ℚ))] := by injection hl with h2; exact h2.symm
      refine ⟨?_, Or.inr (by norm_num)⟩
      intro p hp
      simp only [List.mem_singleton] at hp
      subst hp
      simp [keys])
  rw [h]
  norm_num

lemma omegaDiag_length (tau : ℚ) (symbols : List String)
    (cov : Matrix (Fin symbols.length) (Fin symbols.length) ℚ)
    (views confs : List (String × ℚ)) :
    (omegaDiag tau symbols cov views confs).length
      = views.countP (fun v => decide (v.1 ∈ symbols)) := by
  induction views with
  | nil => rfl
  | cons v t ih =>
    simp only [omegaDiag, List.filterMap_cons] at ih ⊢
    by_cases h : v.1 ∈ symbols
    · rw [dif_pos h, List.length_cons, ih, List.countP_cons]
      simp [h]
    · rw [dif_neg h, ih, List.countP_cons]
      simp [h]

lemma OmegaM_det_ne_zero_of (tau : ℚ) (symbols : List String)
    (cov : Matrix (Fin symbols.length) (Fin symbols.length) ℚ)
    (views confs : List (String × ℚ))
    (h : ∀ x ∈ omegaDiag tau symbols cov views confs, x ≠ 0) :
    (OmegaM tau symbols cov views confs).det ≠ 0 := by
  unfold OmegaM
  rw [Matrix.det_diagonal]
  intro h0
  obtain ⟨i, _, hi⟩ := Finset.prod_eq_zero_iff.mp h0
  exact h _ (List.get_mem _ i.1 i.2) hi

/-- C3 (Black-Litterman singular fallback): whenever one of the matrix
inversions attempted inside the blender is singular — `tau*Sigma`, `Omega`, or
(when the shapes line up) `M_inv` — the model returns the equilibrium vector
`pi` unchanged as a normal value (`Except.ok`), never an exception. -/
theorem bl_singular_fallback (tau : ℚ) (symbols : List String)
    (equilibrium_returns : Fin symbols.length → ℚ)
    (covariance_matrix : Matrix (Fin symbols.length) (Fin symbols.length) ℚ)
    (views view_confidences : List (String × ℚ))
    (hsing : (tau • covariance_matrix).det = 0 ∨
      (OmegaM tau symbols covariance_matrix views view_confidences).det = 0 ∨
      ∃ hlen : (omegaDiag tau symbols covariance_matrix views view_confidences).length
          = views.length,
        (Minv tau symbols covariance_matrix views view_confidences hlen).det = 0) :
    black_litterman_model tau symbols equilibrium_returns covariance_matrix
      views view_confidences = .ok equilibrium_returns := by
  unfold black_litterman_model
  split_ifs with h1 h2 hlen h3
  · rfl
  · rfl
  · rfl
  · rcases hsing with h | h | ⟨h', hdet⟩
    · exact absurd h h1
    · exact absurd h h2
    · exact absurd hdet h3
  · rcases hsing with h | h | ⟨h', hdet⟩
    · exact absurd h h1
    · exact absurd h h2
    · exact absurd h' hlen

/-- Witness for C3: a zero covariance matrix makes `tau*Sigma` singular, and
the blender hands back the equilibrium vector. -/
theorem bl_singular_fallback_witness :
    black_litterman_model (1/40) ["a"] (fun _ => 9/100) 0 [] []
      = .ok (fun _ => 9/100) :=
  bl_singular_fallback (1/40) ["a"] (fun _ => 9/100) 0 [] []
    (Or.inl (by
      show ((1/40 : ℚ) • (0 : Matrix (Fin 1) (Fin 1) ℚ)).det = 0
      rw [smul_zero]
      simp [Matrix.det_fin_one]))

/-- C9 (shape-mismatch escape): `black_litterman_model` catches only
`LinAlgError`; when some view names a symbol outside the ordered symbol list,
`P` and `Q` keep dimension `|views|` while `omega_diag` only collects the
matching views, so (with both attempted inversions non-singular) the matmul
`P.T @ inv(Omega) @ P` fails on mismatched shapes and the resulting exception
propagates to the caller instead of triggering the equilibrium fallback. -/
theorem bl_shape_mismatch (tau : ℚ) (symbols : List String)
    (equilibrium_returns : Fin symbols.length → ℚ)
    (covariance_matrix : Matrix (Fin symbols.length) (Fin symbols.length) ℚ)
    (views view_confidences : List (String × ℚ))
    (h1 : (tau • covariance_matrix).det ≠ 0)
    (h2 : (OmegaM tau symbols covariance_matrix views view_confidences).det ≠ 0)
    (h3 : ∃ w ∈ views, w.1 ∉ symbols) :
    black_litterman_model tau symbols equilibrium_returns covariance_matrix
      views view_confidences = .error () ∧
    (omegaDiag tau symbols covariance_matrix views view_confidences).length
      = views.countP (fun v => decide (v.1 ∈ symbols)) := by
  have hcount := omegaDiag_length tau symbols covariance_matrix views view_confidences
  have hlen : (omegaDiag tau symbols covariance_matrix views view_confidences).length
      ≠ views.length := by
    rw [hcount]
    intro heq
    obtain ⟨w, hw, hns⟩ := h3
    have := List.countP_eq_length.mp heq w hw
    simp only [decide_eq_true_eq] at this
    exact hns this
  refine ⟨?_, hcount⟩
  unfold black_litterman_model
  rw [if_neg h1, if_neg h2, dif_neg hlen]

/-- Witness for C9: one matching view on `a` (variance ≤ 0, so its Omega entry
is the floor 0.01) plus one stray view on `b` gives `Omega` dimension 1 against
`|views| = 2`, and the blender escapes with the shape-mismatch error. -/
theorem bl_shape_mismatch_witness :
    black_litterman_model (1/40) ["a"] (fun _ => 9/100) (Matrix.of fun _ _ => -1)
      [("a", 1/10), ("b", 1/5)] [("a", 4/5)] = .error () :=
  (bl_shape_mismatch (1/40) ["a"] (fun _ => 9/100) (Matrix.of fun _ _ => -1)
    [("a", 1/10), ("b", 1/5)] [("a", 4/5)]
    (by
      show (((1/40 : ℚ) • (Matrix.of fun _ _ => (-1:ℚ) : Matrix (Fin 1) (Fin 1) ℚ))).det ≠ 0
      simp [Matrix.det_fin_one, Matrix.smul_apply])
    (OmegaM_det_ne_zero_of _ _ _ _ _ (by
      intro x hx
      simp only [omegaDiag, List.filterMap_cons, List.filterMap_nil] at hx
      rw [dif_pos (by simp)] at hx
      rw [dif_neg (by simp)] at hx
      simp only [List.mem_singleton] at hx
      subst hx
      norm_num [omega_uncertainty, dget, Matrix.of_apply]))
    ⟨("b", 1/5), by simp, by simp⟩).1

lemma dget_some_mem {l : List (String × ℚ)} {s : String} {v : ℚ}
    (h : dget l s = some v) : s ∈ keys l := by
  induction l with
  | nil => simp [dget] at h
  | cons p t ih =>
    simp only [dget] at h
    by_cases hp : p.1 = s
    · simp [keys, hp]
    · rw [if_neg hp] at h
      simpa [keys] using Or.inr (by simpa [keys] using ih h)

lemma mem_keys_calculate_quantities {t prices : List (String × ℚ)} {s : String}
    (hs : s ∈ keys (calculate_quantities t prices)) : s ∈ keys t := by
  simp only [keys, List.mem_map] at hs
  obtain ⟨q, hq, rfl⟩ := hs
  obtain ⟨a, ha, hfa⟩ := List.mem_filterMap.mp hq
  cases hdg : dget prices a.1 with
  | none => simp [hdg] at hfa
  | some price =>
    simp only [hdg] at hfa
    split_ifs at hfa
    injection hfa with hfa
    subst hfa
    show a.1 ∈ keys t
    exact List.mem_map_of_mem Prod.fst ha

lemma dget_calculate_quantities {positions prices : List (String × ℚ)} {s : String} {q : ℚ}
    (hnd : (keys positions).Nodup)
    (h : dget (calculate_quantities positions prices) s = some q) :
    ∃ pos price, dget positions s = some pos ∧ dget prices s = some price ∧
      pos ≠ 0 ∧ price > 0 ∧ q = pos / price := by
  induction positions with
  | nil => simp [calculate_quantities, dget] at h
  | cons p t ih =>
    have hnd0 : p.1 ∉ keys t ∧ (keys t).Nodup := by
      rw [keys, List.map_cons, List.nodup_cons] at hnd
      exact ⟨by simpa [keys] using hnd.1, by simpa [keys] using hnd.2⟩
    simp only [calculate_quantities, List.filterMap_cons] at h
    cases hdp : dget prices p.1 with
    | none =>
      simp only [hdp] at h
      obtain ⟨pos, price, h1, h2, h3, h4, h5⟩ := ih hnd0.2 h
      have hs : s ∈ keys t := dget_some_mem h1
      have hps : ¬(p.1 = s) := fun he => hnd0.1 (he ▸ hs)
      exact ⟨pos, price, by simpa [dget, if_neg hps] using h1, h2, h3, h4, h5⟩
    | some price =>
      by_cases hcond : p.2 ≠ 0 ∧ price > 0
      · simp only [hdp, eq_true hcond, if_true] at h
        simp only [dget] at h
        by_cases hps : p.1 = s
        · rw [if_pos hps] at h
          injection h with h
          exact ⟨p.2, price, by simp [dget, hps], hps ▸ hdp, hcond.1, hcond.2, h.symm⟩
        · rw [if_neg hps] at h
          obtain ⟨pos, price', h1, h2, h3, h4, h5⟩ := ih hnd0.2 h
          exact ⟨pos, price', by simpa [dget, if_neg hps] using h1, h2, h3, h4, h5⟩
      · simp only [hdp, if_neg hcond] at h
        obtain ⟨pos, price', h1, h2, h3, h4, h5⟩ := ih hnd0.2 h
        have hs : s ∈ keys t := dget_some_mem h1
        have hps : ¬(p.1 = s) := fun he => hnd0.1 (he ▸ hs)
        exact ⟨pos, price', by simpa [dget, if_neg hps] using h1, h2, h3, h4, h5⟩

lemma build_output_ok_mem (positions quantities prices confidences : List (String × ℚ))
    (T : ℚ) (er : List ℚ) (symbols : List String) :
    ∀ (syms : List String) (out : List (String × OutputRecord)),
      build_output positions quantities prices confidences T er symbols syms = .ok out →
      ∀ r ∈ out, ∃ pos q price,
        dget positions r.1 = some pos ∧ dget quantities r.1 = some q ∧
        dget prices r.1 = some price ∧
        r.2.position_usd = pos ∧ r.2.quantity = q ∧ r.2.price = price := by
  intro syms
  induction syms with
  | nil =>
    intro out h r hr
    simp only [build_output] at h
    injection h with h
    subst h
    simp at hr
  | cons s rest ih =>
    intro out h r hr
    simp only [build_output] at h
    cases hdp : dget positions s with
    | none =>
      simp only [hdp] at h
      exact Except.noConfusion h
    | some pos =>
      simp only [hdp] at h
      by_cases hz : pos ≠ 0
      · rw [if_pos hz] at h
        split at h
        · rename_i q price conf hq hpr hcf
          split at h
          · rename_i out' hrec
            injection h with h
            subst h
            rcases List.mem_cons.mp hr with rfl | hr'
            · exact ⟨pos, q, price, hdp, hq, hpr, rfl, rfl, rfl⟩
            · exact ih out' hrec r hr'
          · exact Except.noConfusion h
        all_goals exact Except.noConfusion h
      · rw [if_neg hz] at h
        exact ih out h r hr

/-- C5 (code bug): a symbol with price 0 and a non-zero position is correctly
excluded from `calculate_quantities`, but the final-output loop of
`execute_algorithm` indexes `quantities[symbol]` unguarded, so the run aborts
with a `KeyError` instead of omitting the symbol and completing. -/
theorem missing_price_keyerror :
    calculate_quantities [("a", 50)] [("a", 0)] = [] ∧
    execute_output [("a", 50)] [("a", 0)] [1/10] [("a", 4/5)] ["a"] = .error () := by
  constructor
  · simp [calculate_quantities, dget]
  · simp [execute_output, build_output, calculate_quantities, dget]

/-- C6 (quantity round-trip): whenever the output assembly of
`execute_algorithm` completes, every output record satisfies
`quantity * price = position_usd` exactly over rational arithmetic (the
quantity is `position_usd / price` with the same positive price that is
reported in the record). -/
theorem quantity_roundtrip (positions prices : List (String × ℚ)) (er : List ℚ)
    (confs : List (String × ℚ)) (symbols : List String)
    (out : List (String × OutputRecord))
    (hnd : (keys positions).Nodup)
    (hok : execute_output positions prices er confs symbols = .ok out) :
    ∀ r ∈ out, r.2.quantity * r.2.price = r.2.position_usd := by
  intro r hr
  obtain ⟨pos, q, price, h1, h2, h3, e1, e2, e3⟩ :=
    build_output_ok_mem positions (calculate_quantities positions prices) prices confs
      ((positions.map Prod.snd).sum) er symbols symbols out hok r hr
  obtain ⟨pos', price', g1, g2, g3, g4, g5⟩ := dget_calculate_quantities hnd h2
  rw [h1] at g1
  injection g1 with g1
  rw [h3] at g2
  injection g2 with g2
  rw [e1, e2, e3, g5, g1, g2]
  exact div_mul_cancel₀ pos' (ne_of_gt g4)

/-- Witness for C6: the run `positions = {a: 50}`, `prices = {a: 2}` completes
with the single record `(position_usd, quantity, price) = (50, 25, 2)`, and
`25 * 2 = 50`. -/
theorem quantity_roundtrip_witness :
    (keys [(("a":String), (50:ℚ))]).Nodup ∧ (25 * 2 : ℚ) = 50 := by
  refine ⟨by simp [keys], ?_⟩
  have h := quantity_roundtrip [("a", 50)] [("a", 2)] [1/10] [("a", 4/5)] ["a"]
    [("a", ⟨50, 25, 2, 1, 1/10, 4/5⟩)] (by simp [keys])
    (by norm_num [execute_output, build_output, calculate_quantities, dget,
      List.indexOf_cons_self])
  simpa using h ("a", ⟨50, 25, 2, 1, 1/10, 4/5⟩) (by simp)

end FlowChain
